import Mathlib

/-!
Verification of the trial-variable store of `hyperopt/base.py`
(`TheanoBanditAlgo`): the identity allocator (`_next_id` / `next_id`), the
sparse per-slot store (`db_idxs` / `db_vals`), and the operations `recall`,
`record` and `suggest`, shallowly embedded as pure Lean functions on an
explicit state.  Values stored in `db_vals` are kept abstract as a type
parameter `α`.
-/

namespace Hyperopt

/-- The mutable state of a `TheanoBanditAlgo` instance: the allocator counter
`_next_id` and the per-slot parallel stores `db_idxs` (global ids) and
`db_vals` (values).  One entry of the outer lists per variable slot. -/
structure TBA (α : Type) where
  next_id : Nat
  db_idxs : List (List Nat)
  db_vals : List (List α)
  deriving DecidableEq, Repr

/-- The state right after `__init__` (`self._next_id = 0`) and `set_bandit`
(`self.db_idxs = [[] for s in self.s_idxs]`, likewise `db_vals`), for a
template with `k` active slots. -/
def TBA.init (α : Type) (k : Nat) : TBA α :=
  { next_id := 0
    db_idxs := List.replicate k []
    db_vals := List.replicate k [] }

/-- `N` as computed by the loop in `record`: starting from `N = 0`, take
`N = max(N, ii+1)` for every position `ii` in the flattened input.  This is
one plus the greatest referenced position, and `0` when none is referenced. -/
def maxPlus1 (l : List Nat) : Nat :=
  l.foldl (fun m ii => max m (ii + 1)) 0

/-- Python `list(sorted(set(l)))`: the ascending list of the distinct
elements of `l`. -/
def sortedDistinct (l : List Nat) : List Nat :=
  l.dedup.insertionSort (· ≤ ·)

/-- Per-index extension of the per-slot stores: the loop body
`self.db_idxs[i].append(...)` / `self.db_vals[i].extend(...)` executed for
each index `i` covered by `ext`; slots beyond `ext` are untouched. -/
def extendEach (db ext : List (List β)) : List (List β) :=
  db.zipWith (· ++ ·) ext ++ db.drop ext.length

/-- `TheanoBanditAlgo.record(idxs, vals)`.  The two leading asserts
(`len(idxs) == len(self.db_idxs)`, `len(vals) == len(self.db_vals)`) are
modelled as a guard returning `none`; they run before any mutation, so a
failed call leaves the state unchanged.  On success the call returns the
sorted duplicate-free list of the freshly produced global ids together with
the updated state: each position `ii` of slot `i` appends `ii + _next_id` to
`db_idxs[i]`, the value vector extends `db_vals[i]`, and the counter advances
by `N = maxPlus1` of all referenced positions. -/
def record (s : TBA α) (idxs : List (List Nat)) (vals : List (List α)) :
    Option (List Nat × TBA α) :=
  if idxs.length = s.db_idxs.length ∧ vals.length = s.db_vals.length then
    let pairs := idxs.zip vals
    let posLists := pairs.map Prod.fst
    let newIds := (posLists.map fun l => l.map (· + s.next_id)).flatten
    some (sortedDistinct newIds,
      { next_id := s.next_id + maxPlus1 posLists.flatten
        db_idxs := extendEach s.db_idxs (posLists.map fun l => l.map (· + s.next_id))
        db_vals := extendEach s.db_vals (pairs.map Prod.snd) })
  else none

/-- Errors raised by `recall`: `dupIdentity` is the
`NotImplementedError('dups in idlist')` branch, `assertFail` the per-slot
`assert len(idxs) == len(vals)`. -/
inductive RecallErr where
  | dupIdentity
  | assertFail
  deriving DecidableEq, Repr

/-- The slot loop of `recall`: for each `(idxs, vals)` pair of
`zip(self.db_idxs, self.db_vals)`, assert equal lengths, keep the stored
entries whose id is a key of `iddict` (i.e. a member of `idlist`), replace
each kept id by `iddict[ii]` (its index in `idlist`), in storage order. -/
def recallSlots (idlist : List Nat) :
    List (List Nat × List α) → Except RecallErr (List (List Nat) × List (List α))
  | [] => .ok ([], [])
  | (idxs, vals) :: rest =>
    if idxs.length = vals.length then
      match recallSlots idlist rest with
      | .error e => .error e
      | .ok (ris, rvs) =>
        let kept := (idxs.zip vals).filter fun pr => decide (pr.1 ∈ idlist)
        .ok ((kept.map fun pr => idlist.indexOf pr.1) :: ris,
             (kept.map Prod.snd) :: rvs)
    else .error .assertFail

/-- `TheanoBanditAlgo.recall(idlist)`.  With a non-empty `idlist`, first the
duplicate check (`len(iddict) != len(idlist)`), then the slot loop; with an
empty `idlist` every slot yields an empty assignment (`[[] for s in
self.s_idxs]`, one per slot).  The method writes no attribute of `self`. -/
def recall' (s : TBA α) (idlist : List Nat) :
    Except RecallErr (List (List Nat) × List (List α)) :=
  if 0 < idlist.length then
    if idlist.Nodup then
      recallSlots idlist (s.db_idxs.zip s.db_vals)
    else .error .dupIdentity
  else
    .ok (s.db_idxs.map fun _ => [], s.db_idxs.map fun _ => [])

/-- The method-call embedding of `recall`: result paired with the state the
method leaves behind.  The Python body assigns only to local variables
(`iddict`, `rval_idxs`, `rval_vals`, loop variables), never to a field of
`self`, so the resulting state is the input state. -/
def recallM (idlist : List Nat) (s : TBA α) :
    Except RecallErr (List (List Nat) × List (List α)) × TBA α :=
  (recall' s idlist, s)

/-- A document as handled by `suggest`: one optional value per active slot
(as rebuilt by `idxs_vals_to_dict_list`) and the optional `'TBA_id'` key. -/
structure Document (α : Type) where
  payload : List (Option α)
  TBA_id : Option Nat
  deriving DecidableEq, Repr

/-- Modelled from the spec: `template.idxs_vals_to_dict_list` lives in module
`ht_dist2`, which is not part of this repository snapshot.  Spec §4.5: one
document per local position, holding for every slot the value that slot
assigns to the position, or an unset marker when the slot does not cover it;
no identity tag before `record`.  The document count is inferred from the
data, one plus the greatest referenced position, matching `record`'s batch
inference. -/
def to_documents (idxs : List (List Nat)) (vals : List (List α)) :
    List (Document α) :=
  (List.range (maxPlus1 idxs.flatten)).map fun p =>
    { payload := (idxs.zip vals).map fun pr => (pr.1.zip pr.2).lookup p
      TBA_id := none }

/-- `TheanoBanditAlgo.suggest(X_list, Y_list, Y_status, N)`.  The strategy
`theano_suggest` is abstract in the source (`raise NotImplementedError`), so
it is a function parameter; `Y_list` and `Y_status` are passed through to it
unchanged and are absorbed into the closure.  Phases, as in the source:
extract `X['TBA_id']` from every history document (a missing key is a
`KeyError`), `recall`, strategy, `record`, `assert len(ids) == N`, rebuild
documents, `assert len(rval) == N`, and tag each document after asserting
`'TBA_id' not in r`.  Each failing assert is a `(none, ·)` outcome carrying
whatever state the mutations so far produced: the asserts after `record`
fire only after `record` has already committed. -/
def suggest (strat : List (List Nat) → List (List α) → Nat →
      List (List Nat) × List (List α))
    (s : TBA α) (X_list : List (Document α)) (N : Nat) :
    Option (List (Document α)) × TBA α :=
  if (X_list.map Document.TBA_id).any Option.isNone then (none, s)
  else
    match recall' s (X_list.filterMap Document.TBA_id) with
    | .error _ => (none, s)
    | .ok (X_idxs, X_vals) =>
      match strat X_idxs X_vals N with
      | (r_idxs, r_vals) =>
        match record s r_idxs r_vals with
        | none => (none, s)
        | some (ids, s1) =>
          if ids.length = N then
            if (to_documents r_idxs r_vals).length = N then
              if (to_documents r_idxs r_vals).all fun d => d.TBA_id.isNone then
                (some (List.zipWith (fun i d => { d with TBA_id := some i })
                  ids (to_documents r_idxs r_vals)), s1)
              else (none, s1)
            else (none, s1)
          else (none, s1)

/-- All global ids currently stored in any slot. -/
def allIds (s : TBA α) : List Nat :=
  s.db_idxs.flatten

/-- A sequence of bare `record` calls (a failed call leaves the state as it
was, like an uncaught assert on the Python object). -/
def recordSeq (s : TBA α) (calls : List (List (List Nat) × List (List α))) :
    TBA α :=
  calls.foldl (fun s c =>
    match record s c.1 c.2 with
    | some (_, s') => s'
    | none => s) s

/-- A sequence of `suggest` calls, each with its own strategy, history
documents and `N`; only the state evolution is observed. -/
def suggestSeq (s : TBA α)
    (calls : List ((List (List Nat) → List (List α) → Nat →
        List (List Nat) × List (List α)) × List (Document α) × Nat)) :
    TBA α :=
  calls.foldl (fun s c => (suggest c.1 s c.2.1 c.2.2).2) s


/-! ### Helper lemmas: `maxPlus1` -/

theorem maxPlus1_nil : maxPlus1 [] = 0 := rfl

theorem foldl_max_eq (l : List Nat) :
    ∀ a : Nat, l.foldl (fun m ii => max m (ii + 1)) a = max a (maxPlus1 l) := by
  induction l with
  | nil => intro a; simp [maxPlus1]
  | cons x t ih =>
    intro a
    have hl : (x :: t).foldl (fun m ii => max m (ii + 1)) a
        = max (max a (x + 1)) (maxPlus1 t) := by
      rw [List.foldl_cons]; exact ih (max a (x + 1))
    have hc : maxPlus1 (x :: t) = max (max 0 (x + 1)) (maxPlus1 t) := by
      have h2 : maxPlus1 (x :: t)
          = t.foldl (fun m ii => max m (ii + 1)) (max 0 (x + 1)) := by
        simp only [maxPlus1, List.foldl_cons]
      rw [h2]; exact ih (max 0 (x + 1))
    rw [hl, hc]
    omega

theorem maxPlus1_cons (x : Nat) (t : List Nat) :
    maxPlus1 (x :: t) = max (x + 1) (maxPlus1 t) := by
  have h := foldl_max_eq t (max 0 (x + 1))
  have h2 : maxPlus1 (x :: t)
      = t.foldl (fun m ii => max m (ii + 1)) (max 0 (x + 1)) := by
    simp only [maxPlus1, List.foldl_cons]
  omega

theorem lt_maxPlus1 {p : Nat} {l : List Nat} (h : p ∈ l) : p < maxPlus1 l := by
  induction l with
  | nil => simp at h
  | cons x t ih =>
    rw [maxPlus1_cons]
    rcases List.mem_cons.1 h with rfl | h
    · omega
    · have := ih h; omega

theorem maxPlus1_le {l : List Nat} {N : Nat} (h : ∀ p ∈ l, p < N) :
    maxPlus1 l ≤ N := by
  induction l with
  | nil => simp [maxPlus1_nil]
  | cons x t ih =>
    rw [maxPlus1_cons]
    have hx := h x (List.mem_cons_self x t)
    have ht := ih fun p hp => h p (List.mem_cons_of_mem x hp)
    omega

theorem maxPlus1_maximum {l : List Nat} {m : Nat} (h : l.maximum = some m) :
    maxPlus1 l = m + 1 := by
  have hmem : m ∈ l := List.maximum_mem h
  have hub : ∀ p ∈ l, p < m + 1 := by
    intro p hp
    have := List.le_maximum_of_mem hp h
    omega
  have h1 := maxPlus1_le hub
  have h2 := lt_maxPlus1 hmem
  omega

theorem maxPlus1_eq_zero {l : List Nat} (h : l = []) : maxPlus1 l = 0 := by
  subst h; rfl

/-! ### Helper lemmas: `sortedDistinct` -/

theorem sortedDistinct_perm (l : List Nat) :
    List.Perm (sortedDistinct l) l.dedup :=
  List.perm_insertionSort _ _

theorem mem_sortedDistinct {a : Nat} {l : List Nat} :
    a ∈ sortedDistinct l ↔ a ∈ l := by
  rw [(sortedDistinct_perm l).mem_iff, List.mem_dedup]

theorem sortedDistinct_nodup (l : List Nat) : (sortedDistinct l).Nodup :=
  (sortedDistinct_perm l).nodup_iff.2 (List.nodup_dedup l)

theorem sortedDistinct_sorted_le (l : List Nat) :
    List.Sorted (· ≤ ·) (sortedDistinct l) :=
  List.sorted_insertionSort _ _

theorem sortedDistinct_sorted (l : List Nat) :
    List.Sorted (· < ·) (sortedDistinct l) := by
  have h1 := sortedDistinct_sorted_le l
  have h2 := sortedDistinct_nodup l
  exact (h1.and h2).imp fun h => lt_of_le_of_ne h.1 h.2

theorem sortedDistinct_eq {l r : List Nat} (hs : List.Sorted (· < ·) r)
    (hm : ∀ a, a ∈ r ↔ a ∈ l) : sortedDistinct l = r := by
  have hrnd : r.Nodup := hs.imp fun h => ne_of_lt h
  have hperm : List.Perm (sortedDistinct l) r := by
    refine (List.perm_ext_iff_of_nodup (sortedDistinct_nodup l) hrnd).2 ?_
    intro a; rw [mem_sortedDistinct, hm]
  exact List.eq_of_perm_of_sorted hperm (sortedDistinct_sorted_le l)
    (hs.imp fun h => le_of_lt h)

/-! ### Helper lemmas: `extendEach` -/

theorem extendEach_nil_right (db : List (List β)) : extendEach db [] = db := by
  simp [extendEach]

theorem extendEach_nil_left (ext : List (List β)) :
    extendEach ([] : List (List β)) ext = [] := by
  simp [extendEach]

theorem extendEach_cons (d e : List β) (db ext : List (List β)) :
    extendEach (d :: db) (e :: ext) = (d ++ e) :: extendEach db ext := by
  simp [extendEach]

theorem extendEach_length (db ext : List (List β)) :
    (extendEach db ext).length = db.length := by
  induction db generalizing ext with
  | nil => simp [extendEach_nil_left]
  | cons d db ih =>
    cases ext with
    | nil => simp [extendEach_nil_right]
    | cons e ext => simp [extendEach_cons, ih]

theorem extendEach_getD (db ext : List (List β)) (i : Nat)
    (h : i < db.length) :
    (extendEach db ext).getD i [] = db.getD i [] ++ ext.getD i [] := by
  induction db generalizing ext i with
  | nil => simp at h
  | cons d db ih =>
    cases ext with
    | nil =>
      rw [extendEach_nil_right]
      simp
    | cons e ext =>
      cases i with
      | zero => simp [extendEach_cons]
      | succ n =>
        have hn : n < db.length := by simpa using h
        simpa [extendEach_cons] using ih ext n hn

theorem mem_flatten_extendEach {a : β} {db ext : List (List β)}
    (h : a ∈ (extendEach db ext).flatten) :
    a ∈ db.flatten ∨ a ∈ ext.flatten := by
  induction db generalizing ext with
  | nil => rw [extendEach_nil_left] at h; simp at h
  | cons d db ih =>
    cases ext with
    | nil => rw [extendEach_nil_right] at h; exact Or.inl h
    | cons e ext =>
      rw [extendEach_cons] at h
      simp only [List.flatten_cons, List.mem_append] at h ⊢
      rcases h with (h | h) | h
      · exact Or.inl (Or.inl h)
      · exact Or.inr (Or.inl h)
      · rcases ih h with h | h
        · exact Or.inl (Or.inr h)
        · exact Or.inr (Or.inr h)

theorem mem_extendEach {x : List β} {db ext : List (List β)}
    (h : x ∈ extendEach db ext) :
    ∃ i, i < db.length ∧ x = db.getD i [] ++ ext.getD i [] := by
  obtain ⟨i, hi, hx⟩ := List.mem_iff_getElem.1 h
  have hi2 : i < db.length := by rwa [extendEach_length] at hi
  refine ⟨i, hi2, ?_⟩
  rw [← extendEach_getD _ _ _ hi2, List.getD_eq_getElem _ _ hi, hx]

/-! ### Characterization of `record` -/

theorem record_some (s : TBA α) (idxs : List (List Nat)) (vals : List (List α))
    (h1 : idxs.length = s.db_idxs.length) (h2 : vals.length = s.db_vals.length) :
    record s idxs vals =
      some (sortedDistinct ((((idxs.zip vals).map Prod.fst).map
              fun l => l.map (· + s.next_id)).flatten),
        { next_id := s.next_id + maxPlus1 ((idxs.zip vals).map Prod.fst).flatten
          db_idxs := extendEach s.db_idxs (((idxs.zip vals).map Prod.fst).map
              fun l => l.map (· + s.next_id))
          db_vals := extendEach s.db_vals ((idxs.zip vals).map Prod.snd) }) := by
  simp only [record, if_pos (And.intro h1 h2)]

theorem record_none (s : TBA α) (idxs : List (List Nat)) (vals : List (List α))
    (h : ¬(idxs.length = s.db_idxs.length ∧ vals.length = s.db_vals.length)) :
    record s idxs vals = none := by
  simp only [record, if_neg h]

theorem record_some_inv {s : TBA α} {idxs : List (List Nat)}
    {vals : List (List α)} {r : List Nat} {s' : TBA α}
    (h : record s idxs vals = some (r, s')) :
    idxs.length = s.db_idxs.length ∧ vals.length = s.db_vals.length ∧
    r = sortedDistinct ((((idxs.zip vals).map Prod.fst).map
          fun l => l.map (· + s.next_id)).flatten) ∧
    s' = { next_id := s.next_id + maxPlus1 ((idxs.zip vals).map Prod.fst).flatten
           db_idxs := extendEach s.db_idxs (((idxs.zip vals).map Prod.fst).map
               fun l => l.map (· + s.next_id))
           db_vals := extendEach s.db_vals ((idxs.zip vals).map Prod.snd) } := by
  by_cases hc : idxs.length = s.db_idxs.length ∧ vals.length = s.db_vals.length
  · rw [record_some s idxs vals hc.1 hc.2] at h
    injection h with hp
    injection hp with ha hb
    exact ⟨hc.1, hc.2, ha.symm, hb.symm⟩
  · rw [record_none s idxs vals hc] at h
    cases h

theorem mem_ext_iff (c : Nat) (pls : List (List Nat)) {g : Nat} :
    (g ∈ ((pls.map fun l => l.map (· + c)).flatten)) ↔
      ∃ p ∈ pls.flatten, p + c = g := by
  rw [← List.map_flatten]
  exact List.mem_map

/-! ### getD helpers -/

theorem getD_mem_or_nil (xs : List (List β)) (i : Nat) :
    xs.getD i [] ∈ xs ∨ xs.getD i [] = [] := by
  by_cases h : i < xs.length
  · left
    rw [List.getD_eq_getElem _ _ h]
    exact List.getElem_mem h
  · right
    simp [List.getD_eq_getElem?_getD, List.getElem?_eq_none (le_of_not_lt h)]

theorem mem_of_mem_getD {a : β} {xs : List (List β)} {i : Nat}
    (h : a ∈ xs.getD i []) : a ∈ xs.flatten := by
  rcases getD_mem_or_nil xs i with hm | he
  · exact List.mem_flatten_of_mem hm h
  · rw [he] at h
    simp at h

/-! ### Store invariants -/

/-- Spec I2/P2: every stored id is below the allocator counter. -/
def Bound (s : TBA α) : Prop := ∀ g ∈ allIds s, g < s.next_id

/-- No global id occurs twice within one slot's store. -/
def SlotsNodup (s : TBA α) : Prop := ∀ l ∈ s.db_idxs, l.Nodup

/-- Spec I1: the two parallel per-slot store sequences have equal length. -/
def LenWF (s : TBA α) : Prop :=
  s.db_idxs.length = s.db_vals.length ∧
  ∀ i, i < s.db_idxs.length →
    (s.db_idxs.getD i []).length = (s.db_vals.getD i []).length

theorem bound_init (α : Type) (k : Nat) : Bound (TBA.init α k) := by
  intro g hg
  simp only [allIds, TBA.init, List.mem_flatten] at hg
  obtain ⟨l, hl, hgl⟩ := hg
  rw [List.eq_of_mem_replicate hl] at hgl
  simp at hgl

theorem slotsNodup_init (α : Type) (k : Nat) : SlotsNodup (TBA.init α k) := by
  intro l hl
  rw [List.eq_of_mem_replicate hl]
  exact List.nodup_nil

theorem bound_record {s : TBA α} {idxs : List (List Nat)}
    {vals : List (List α)} {r : List Nat} {s' : TBA α}
    (hb : Bound s) (h : record s idxs vals = some (r, s')) : Bound s' := by
  obtain ⟨h1, h2, hr, hs⟩ := record_some_inv h
  subst hs
  intro g hg
  simp only [allIds] at hg
  show g < s.next_id + maxPlus1 ((idxs.zip vals).map Prod.fst).flatten
  rcases mem_flatten_extendEach hg with hold | hnew
  · have := hb g hold
    omega
  · obtain ⟨p, hp, hpc⟩ := (mem_ext_iff s.next_id _).1 hnew
    have := lt_maxPlus1 hp
    omega

theorem slotsNodup_record {s : TBA α} {idxs : List (List Nat)}
    {vals : List (List α)} {r : List Nat} {s' : TBA α}
    (hb : Bound s) (hn : SlotsNodup s) (hin : ∀ l ∈ idxs, l.Nodup)
    (h : record s idxs vals = some (r, s')) : SlotsNodup s' := by
  obtain ⟨h1, h2, hr, hs⟩ := record_some_inv h
  subst hs
  intro l hl
  obtain ⟨i, hi, rfl⟩ := mem_extendEach hl
  refine List.Nodup.append ?_ ?_ ?_
  · rcases getD_mem_or_nil s.db_idxs i with hm | he
    · exact hn _ hm
    · rw [he]; exact List.nodup_nil
  · rcases getD_mem_or_nil (((idxs.zip vals).map Prod.fst).map
        fun l => l.map (· + s.next_id)) i with hm | he
    · obtain ⟨pl, hpl, hplE⟩ := List.mem_map.1 hm
      rw [← hplE]
      obtain ⟨pr, hpr, rfl⟩ := List.mem_map.1 hpl
      have hfst := (List.of_mem_zip hpr).1
      exact (hin _ hfst).map (add_left_injective s.next_id)
    · rw [he]; exact List.nodup_nil
  · intro a ha ha2
    have hlt := hb a (mem_of_mem_getD ha)
    obtain ⟨p, _, hpc⟩ :=
      (mem_ext_iff s.next_id _).1 (mem_of_mem_getD ha2)
    omega

theorem lenWF_init (α : Type) (k : Nat) : LenWF (TBA.init α k) := by
  constructor
  · simp [TBA.init]
  · intro i hi
    simp [TBA.init] at hi ⊢

theorem length_zip_eq {l1 : List β} {l2 : List γ}
    (h : l1.length = l2.length) : (l1.zip l2).length = l1.length := by
  rw [List.length_zip, h, min_self]

theorem getElem_zip_pair {l1 : List β} {l2 : List γ} {i : Nat}
    (h : i < (l1.zip l2).length) (h1 : i < l1.length) (h2 : i < l2.length) :
    (l1.zip l2)[i] = (l1[i], l2[i]) := by
  apply Option.some.inj
  rw [← List.getElem?_eq_getElem h, List.getElem?_zip_eq_some]
  exact ⟨List.getElem?_eq_getElem h1, List.getElem?_eq_getElem h2⟩

theorem lenWF_record {s : TBA α} {idxs : List (List Nat)}
    {vals : List (List α)} {r : List Nat} {s' : TBA α}
    (hw : LenWF s)
    (hin : ∀ i, i < idxs.length →
      (idxs.getD i []).length = (vals.getD i []).length)
    (h : record s idxs vals = some (r, s')) : LenWF s' := by
  obtain ⟨h1, h2, hr, hs⟩ := record_some_inv h
  subst hs
  have hiv : idxs.length = vals.length := by rw [h1, h2, hw.1]
  have hplen : (idxs.zip vals).length = idxs.length := length_zip_eq hiv
  constructor
  · show (extendEach _ _).length = (extendEach _ _).length
    rw [extendEach_length, extendEach_length]
    exact hw.1
  · intro i hi
    rw [extendEach_length] at hi
    have hi2 : i < s.db_vals.length := by rw [← hw.1]; exact hi
    show (extendEach s.db_idxs _ |>.getD i []).length
        = (extendEach s.db_vals _ |>.getD i []).length
    rw [extendEach_getD _ _ _ hi, extendEach_getD _ _ _ hi2]
    rw [List.length_append, List.length_append]
    have hip : i < (idxs.zip vals).length := by rw [hplen, h1]; exact hi
    have hidx : i < idxs.length := by rw [h1]; exact hi
    have hval : i < vals.length := by rw [← hiv]; exact hidx
    have hzip : (idxs.zip vals)[i] = (idxs[i], vals[i]) :=
      getElem_zip_pair hip hidx hval
    have e1 : (((idxs.zip vals).map Prod.fst).map
        fun l => l.map (· + s.next_id)).getD i [] = (idxs[i]).map (· + s.next_id) := by
      rw [List.getD_eq_getElem _ _ (by simpa [hplen] using hip)]
      rw [List.getElem_map, List.getElem_map, hzip]
    have e2 : ((idxs.zip vals).map Prod.snd).getD i [] = vals[i] := by
      rw [List.getD_eq_getElem _ _ (by simpa [hplen] using hip)]
      rw [List.getElem_map, hzip]
    rw [e1, e2, List.length_map]
    have := hin i hidx
    rw [List.getD_eq_getElem _ _ hidx, List.getD_eq_getElem _ _ hval] at this
    rw [this, hw.2 i hi]

theorem recordSeq_nil (s : TBA α) : recordSeq s [] = s := rfl

theorem recordSeq_cons (s : TBA α) (c : List (List Nat) × List (List α))
    (t : List (List (List Nat) × List (List α))) :
    recordSeq s (c :: t) =
      recordSeq (match record s c.1 c.2 with
                 | some (_, s') => s'
                 | none => s) t := rfl

theorem bound_recordSeq {s : TBA α}
    (calls : List (List (List Nat) × List (List α))) (hb : Bound s) :
    Bound (recordSeq s calls) := by
  induction calls generalizing s with
  | nil => exact hb
  | cons c t ih =>
    rw [recordSeq_cons]
    rcases hrec : record s c.1 c.2 with _ | ⟨r, s'⟩
    · exact ih hb
    · exact ih (bound_record hb hrec)

/-! ### Characterization of `recall` -/

theorem recallSlots_ok (idlist : List Nat)
    (slots : List (List Nat × List α))
    (h : ∀ p ∈ slots, p.1.length = p.2.length) :
    recallSlots idlist slots = .ok
      (slots.map fun p => ((p.1.zip p.2).filter fun pr =>
          decide (pr.1 ∈ idlist)).map fun pr => idlist.indexOf pr.1,
       slots.map fun p => ((p.1.zip p.2).filter fun pr =>
          decide (pr.1 ∈ idlist)).map Prod.snd) := by
  induction slots with
  | nil => rfl
  | cons p t ih =>
    obtain ⟨pi, pv⟩ := p
    simp only [recallSlots]
    rw [if_pos (h (pi, pv) (List.mem_cons_self _ _))]
    rw [ih fun q hq => h q (List.mem_cons_of_mem _ hq)]
    rfl

theorem zip_slots_lengths {s : TBA α} (hw : LenWF s) :
    ∀ p ∈ s.db_idxs.zip s.db_vals, p.1.length = p.2.length := by
  intro p hp
  obtain ⟨n, hn⟩ := List.mem_iff_getElem?.1 hp
  rw [List.getElem?_zip_eq_some] at hn
  obtain ⟨hn1, hn2⟩ := hn
  have h1 : n < s.db_idxs.length := by
    by_contra hc
    rw [List.getElem?_eq_none (le_of_not_lt hc)] at hn1
    cases hn1
  have h2 : n < s.db_vals.length := by
    by_contra hc
    rw [List.getElem?_eq_none (le_of_not_lt hc)] at hn2
    cases hn2
  have e1 : s.db_idxs.getD n [] = p.1 := by
    rw [List.getD_eq_getElem _ _ h1]
    exact Option.some.inj ((List.getElem?_eq_getElem h1).symm.trans hn1)
  have e2 : s.db_vals.getD n [] = p.2 := by
    rw [List.getD_eq_getElem _ _ h2]
    exact Option.some.inj ((List.getElem?_eq_getElem h2).symm.trans hn2)
  rw [← e1, ← e2]
  exact hw.2 n h1

/-! ### Claim theorems (first group) -/

/-- C3 — monotonicity invariant: starting from a fresh store (counter 0,
empty per-slot stores), after any sequence of `record` calls the allocator
counter is strictly greater than every global id appearing in any slot's
store.  (Local positions are naturals, hence non-negative by type.) -/
theorem recordSeq_counter_gt (α : Type) (k : Nat)
    (calls : List (List (List Nat) × List (List α))) :
    ∀ g ∈ allIds (recordSeq (TBA.init α k) calls),
      g < (recordSeq (TBA.init α k) calls).next_id :=
  bound_recordSeq calls (bound_init α k)

theorem recordSeq_counter_gt_witness :
    0 ∈ allIds (recordSeq (TBA.init Nat 1) [([[0]], [[7]])]) ∧
    0 < (recordSeq (TBA.init Nat 1) [([[0]], [[7]])]).next_id :=
  ⟨by decide, recordSeq_counter_gt Nat 1 [([[0]], [[7]])] 0 (by decide)⟩

/-- C9 — parallel-length invariant: for every slot `i`,
`len(db_idxs[i]) == len(db_vals[i])` holds after store initialization and is
preserved by every `record` call whose per-slot positions and values
sequences have equal length. -/
theorem parallel_length_invariant (α : Type) (k : Nat) :
    LenWF (TBA.init α k) ∧
    ∀ (s : TBA α) (idxs : List (List Nat)) (vals : List (List α))
      (r : List Nat) (s' : TBA α), LenWF s →
      (∀ i, i < idxs.length →
        (idxs.getD i []).length = (vals.getD i []).length) →
      record s idxs vals = some (r, s') → LenWF s' :=
  ⟨lenWF_init α k,
   fun _ _ _ _ _ hw hin h => lenWF_record hw hin h⟩

theorem parallel_length_invariant_witness :
    LenWF (TBA.init Nat 2) ∧ LenWF (⟨2, [[0], [1]], [[5], [6]]⟩ : TBA Nat) :=
  ⟨(parallel_length_invariant Nat 2).1,
   (parallel_length_invariant Nat 2).2 (TBA.init Nat 2) [[0], [1]] [[5], [6]]
     [0, 1] ⟨2, [[0], [1]], [[5], [6]]⟩
     (parallel_length_invariant Nat 2).1
     (by decide)
     (by decide)⟩

/-- C10 — recall is a pure query: the state a `recall` method call leaves
behind has the same per-slot stores and the same allocator counter as the
state it was called on, whether the call succeeds or fails. -/
theorem recall_pure (α : Type) (s : TBA α) (idlist : List Nat) :
    (recallM idlist s).2.next_id = s.next_id ∧
    (recallM idlist s).2.db_idxs = s.db_idxs ∧
    (recallM idlist s).2.db_vals = s.db_vals :=
  ⟨rfl, rfl, rfl⟩

/-- C5 — evaluating `suggest` at the spec's Scenario D input (strategy
covers only positions {0, 2} of 0..2 with N = 3): `record` commits its
mutation before `assert len(ids) == N` fires, so the failed call returns no
documents yet leaves the allocator advanced by 3 and the entries appended —
the store and counter are NOT as they were before the call. -/
theorem suggest_failure_mutates :
    suggest (fun _ _ _ => ([[0, 2]], [[10, 20]])) (TBA.init Nat 1) [] 3
      = (none, ⟨3, [[0, 2]], [[10, 20]]⟩) ∧
    (⟨3, [[0, 2]], [[10, 20]]⟩ : TBA Nat) ≠ TBA.init Nat 1 := by
  constructor
  · decide
  · decide

/-- C7 — duplicate rejection: `recall` on an id list containing a repeat
fails with the duplicate-identity error (for any store state), and on a
duplicate-free list over a well-formed store it does not raise. -/
theorem recall_duplicate_rejection (α : Type) :
    (∀ (s : TBA α) (idlist : List Nat), ¬ idlist.Nodup →
        recall' s idlist = .error .dupIdentity) ∧
    (∀ (s : TBA α) (idlist : List Nat), LenWF s → idlist.Nodup →
        ∃ out, recall' s idlist = .ok out) := by
  constructor
  · intro s idlist hnd
    have hlen : 0 < idlist.length := by
      cases idlist with
      | nil => exact absurd List.nodup_nil hnd
      | cons a t => simp
    unfold recall'
    rw [if_pos hlen, if_neg hnd]
  · intro s idlist hw hnd
    by_cases hlen : 0 < idlist.length
    · exact ⟨_, by
        unfold recall'
        rw [if_pos hlen, if_pos hnd]
        exact recallSlots_ok idlist _ (zip_slots_lengths hw)⟩
    · refine ⟨(s.db_idxs.map fun _ => [], s.db_idxs.map fun _ => []), ?_⟩
      unfold recall'
      rw [if_neg hlen]

theorem recall_duplicate_rejection_witness :
    recall' (⟨6, [[5]], [[9]]⟩ : TBA Nat) [5, 5] = .error .dupIdentity ∧
    ∃ out, recall' (⟨6, [[5]], [[9]]⟩ : TBA Nat) [5] = .ok out :=
  ⟨(recall_duplicate_rejection Nat).1 _ [5, 5] (by decide),
   (recall_duplicate_rejection Nat).2 _ [5] ⟨rfl, by decide⟩ (by decide)⟩

/-! ### C1: the `record` contract -/

theorem getD_map_of_lt (f : List β → List γ) (xs : List (List β)) (i : Nat)
    (h : i < xs.length) : (xs.map f).getD i [] = f (xs.getD i []) := by
  rw [List.getD_eq_getElem _ _ (by simpa using h),
    List.getD_eq_getElem _ _ h, List.getElem_map]

/-- C1 — record contract: under the per-slot shape hypotheses, `record`
succeeds; the counter advances by one plus the maximum referenced local
position (unchanged when none is referenced); every slot's store gets its
`(position + offset, value)` pairs appended in input order; and the call
returns the ascending list of the distinct global ids produced, an id being
produced exactly when some slot references its position. -/
theorem record_contract (α : Type) (s : TBA α)
    (idxs : List (List Nat)) (vals : List (List α))
    (hshape : s.db_idxs.length = s.db_vals.length)
    (h1 : idxs.length = s.db_idxs.length)
    (h2 : vals.length = s.db_vals.length)
    (hlen : ∀ i, i < idxs.length →
      (idxs.getD i []).length = (vals.getD i []).length) :
    ∃ ret s', record s idxs vals = some (ret, s') ∧
      (idxs.flatten = [] → s'.next_id = s.next_id) ∧
      (∀ m, idxs.flatten.maximum = some m →
        s'.next_id = s.next_id + (m + 1)) ∧
      s'.db_idxs.length = s.db_idxs.length ∧
      s'.db_vals.length = s.db_vals.length ∧
      (∀ i, i < idxs.length →
        s'.db_idxs.getD i [] =
          s.db_idxs.getD i [] ++ (idxs.getD i []).map (· + s.next_id)) ∧
      (∀ i, i < vals.length →
        s'.db_vals.getD i [] = s.db_vals.getD i [] ++ vals.getD i []) ∧
      List.Sorted (· < ·) ret ∧
      (∀ g, g ∈ ret ↔ ∃ l ∈ idxs, ∃ p ∈ l, p + s.next_id = g) := by
  have hiv : idxs.length = vals.length := by rw [h1, h2, hshape]
  have hfst : (idxs.zip vals).map Prod.fst = idxs :=
    List.map_fst_zip _ _ (le_of_eq hiv)
  have hsnd : (idxs.zip vals).map Prod.snd = vals :=
    List.map_snd_zip _ _ (le_of_eq hiv.symm)
  refine ⟨_, _, record_some s idxs vals h1 h2, ?_, ?_, ?_, ?_, ?_, ?_, ?_, ?_⟩
  · intro hnil
    show s.next_id + maxPlus1 ((idxs.zip vals).map Prod.fst).flatten = s.next_id
    rw [hfst, hnil, maxPlus1_nil]
    omega
  · intro m hm
    show s.next_id + maxPlus1 ((idxs.zip vals).map Prod.fst).flatten
      = s.next_id + (m + 1)
    rw [hfst, maxPlus1_maximum hm]
  · exact extendEach_length _ _
  · exact extendEach_length _ _
  · intro i hi
    have hib : i < s.db_idxs.length := h1 ▸ hi
    show (extendEach s.db_idxs _).getD i [] = _
    rw [extendEach_getD _ _ _ hib, hfst,
      getD_map_of_lt (fun l => l.map (· + s.next_id)) idxs i hi]
  · intro i hi
    have hib : i < s.db_vals.length := h2 ▸ hi
    show (extendEach s.db_vals _).getD i [] = _
    rw [extendEach_getD _ _ _ hib, hsnd]
  · exact sortedDistinct_sorted _
  · intro g
    rw [mem_sortedDistinct, hfst, mem_ext_iff]
    constructor
    · rintro ⟨p, hp, hpc⟩
      obtain ⟨l, hl, hpl⟩ := List.mem_flatten.1 hp
      exact ⟨l, hl, p, hpl, hpc⟩
    · rintro ⟨l, hl, p, hpl, hpc⟩
      exact ⟨p, List.mem_flatten_of_mem hl hpl, hpc⟩

theorem record_contract_witness :
    (record (TBA.init Nat 2) [[0, 2], [1]] [[10, 20], [30]]).isSome := by
  obtain ⟨ret, s', h, -⟩ :=
    record_contract Nat (TBA.init Nat 2) [[0, 2], [1]] [[10, 20], [30]]
      (by decide) (by decide) (by decide) (by decide)
  rw [h]
  rfl

/-! ### C2: recall correctness -/

theorem filter_map_eq_filterMap (p : β → Bool) (f : β → γ) (l : List β) :
    (l.filter p).map f
      = l.filterMap fun x => if p x then some (f x) else none := by
  induction l with
  | nil => rfl
  | cons x t ih =>
    by_cases hx : p x <;> simp [hx, ih]

theorem getD_map_lt (f : β → γ) (xs : List β) {i : Nat}
    (h : i < xs.length) (d : γ) :
    (xs.map f).getD i d = f (xs[i]) := by
  rw [List.getD_eq_getElem _ _ (by simpa using h), List.getElem_map]

theorem getD_map_const_nil (xs : List (List β)) (i : Nat) :
    (xs.map fun _ => ([] : List γ)).getD i [] = [] := by
  rcases getD_mem_or_nil (xs.map fun _ => ([] : List γ)) i with hm | he
  · obtain ⟨_, -, h⟩ := List.mem_map.1 hm
    exact h.symm
  · exact he

/-- C2 — recall correctness: on a length-well-formed store and a
duplicate-free requested id list (possibly empty), `recall` succeeds and,
for every slot independently, returns exactly the stored `(id, value)`
entries whose id is a member of the requested list, in the slot's storage
order, with each kept id replaced by its index in the requested list. -/
theorem recall_correct (α : Type) (s : TBA α) (idlist : List Nat)
    (hw : LenWF s) (hnd : idlist.Nodup) :
    ∃ ris rvs, recall' s idlist = .ok (ris, rvs) ∧
      ris.length = s.db_idxs.length ∧ rvs.length = s.db_idxs.length ∧
      ∀ i, i < s.db_idxs.length →
        (ris.getD i []).length = (rvs.getD i []).length ∧
        (ris.getD i []).zip (rvs.getD i []) =
          ((s.db_idxs.getD i []).zip (s.db_vals.getD i [])).filterMap
            fun pr => if pr.1 ∈ idlist
              then some (idlist.indexOf pr.1, pr.2) else none := by
  by_cases hlen : 0 < idlist.length
  · have hok : recall' s idlist = .ok
        ((s.db_idxs.zip s.db_vals).map fun p => ((p.1.zip p.2).filter fun pr =>
            decide (pr.1 ∈ idlist)).map fun pr => idlist.indexOf pr.1,
         (s.db_idxs.zip s.db_vals).map fun p => ((p.1.zip p.2).filter fun pr =>
            decide (pr.1 ∈ idlist)).map Prod.snd) := by
      unfold recall'
      rw [if_pos hlen, if_pos hnd]
      exact recallSlots_ok idlist _ (zip_slots_lengths hw)
    have hzl : (s.db_idxs.zip s.db_vals).length = s.db_idxs.length :=
      length_zip_eq hw.1
    refine ⟨_, _, hok, by simp [hzl], by simp [hzl], ?_⟩
    intro i hi
    have hi2 : i < s.db_vals.length := hw.1 ▸ hi
    have hiz : i < (s.db_idxs.zip s.db_vals).length := by rw [hzl]; exact hi
    have hzip : (s.db_idxs.zip s.db_vals)[i]
        = (s.db_idxs.getD i [], s.db_vals.getD i []) := by
      rw [getElem_zip_pair hiz hi hi2,
        List.getD_eq_getElem _ _ hi, List.getD_eq_getElem _ _ hi2]
    rw [getD_map_lt _ _ hiz [], getD_map_lt _ _ hiz [], hzip]
    constructor
    · rw [List.length_map, List.length_map]
    · rw [List.zip_map']
      rw [filter_map_eq_filterMap]
      congr 1
      funext pr
      by_cases hpr : pr.1 ∈ idlist <;> simp [hpr]
  · have hnil : idlist = [] := by
      cases idlist with
      | nil => rfl
      | cons a t => simp at hlen
    subst hnil
    have hok : recall' s []
        = .ok (s.db_idxs.map fun _ => [], s.db_idxs.map fun _ => []) := by
      unfold recall'
      rw [if_neg hlen]
    refine ⟨_, _, hok, by simp, by simp, ?_⟩
    intro i hi
    rw [getD_map_const_nil, getD_map_const_nil]
    constructor
    · rfl
    · rw [List.zip_nil_left]
      symm
      rw [List.filterMap_eq_nil_iff]
      intro pr hpr
      simp

theorem recall_correct_witness :
    ∃ ris rvs, recall' (⟨3, [[0, 2], [1]], [[10, 20], [30]]⟩ : TBA Nat) [2, 0]
      = .ok (ris, rvs) := by
  obtain ⟨ris, rvs, h, -⟩ :=
    recall_correct Nat (⟨3, [[0, 2], [1]], [[10, 20], [30]]⟩ : TBA Nat) [2, 0]
      ⟨rfl, by decide⟩ (by decide)
  exact ⟨ris, rvs, h⟩

/-! ### C4 and C8: `suggest` -/

theorem suggestSeq_nil (s : TBA α) : suggestSeq s [] = s := rfl

theorem suggestSeq_cons (s : TBA α)
    (c : (List (List Nat) → List (List α) → Nat →
        List (List Nat) × List (List α)) × List (Document α) × Nat)
    (t : List ((List (List Nat) → List (List α) → Nat →
        List (List Nat) × List (List α)) × List (Document α) × Nat)) :
    suggestSeq s (c :: t) = suggestSeq ((suggest c.1 s c.2.1 c.2.2).2) t :=
  rfl

/-- Every state a `suggest` call can leave behind: either untouched (a
failure before `record`), or the post-`record` state. -/
theorem suggest_snd (strat : List (List Nat) → List (List α) → Nat →
      List (List Nat) × List (List α))
    (s : TBA α) (X : List (Document α)) (N : Nat) :
    (suggest strat s X N).2 = s ∨
    ∃ Xi Xv ids s1,
      record s (strat Xi Xv N).1 (strat Xi Xv N).2 = some (ids, s1) ∧
      (suggest strat s X N).2 = s1 := by
  unfold suggest
  split
  · exact Or.inl rfl
  · split
    · exact Or.inl rfl
    · rename_i Xi Xv hXok
      split
      rename_i r_idxs r_vals hstrat
      split
      · exact Or.inl rfl
      · rename_i ids s1 hrec
        refine Or.inr ⟨Xi, Xv, ids, s1, ?_, ?_⟩
        · rw [hstrat]
          exact hrec
        · split
          · split
            · split
              · rfl
              · rfl
            · rfl
          · rfl

theorem inv_suggestSeq {α : Type} {s : TBA α}
    (calls : List ((List (List Nat) → List (List α) → Nat →
        List (List Nat) × List (List α)) × List (Document α) × Nat))
    (hb : Bound s) (hn : SlotsNodup s)
    (hstrat : ∀ c ∈ calls, ∀ Xi Xv n, ∀ l ∈ (c.1 Xi Xv n).1, l.Nodup) :
    Bound (suggestSeq s calls) ∧ SlotsNodup (suggestSeq s calls) := by
  induction calls generalizing s with
  | nil => exact ⟨hb, hn⟩
  | cons c t ih =>
    rw [suggestSeq_cons]
    have htail : ∀ c' ∈ t, ∀ Xi Xv n, ∀ l ∈ (c'.1 Xi Xv n).1, l.Nodup :=
      fun c' hc' => hstrat c' (List.mem_cons_of_mem _ hc')
    rcases suggest_snd c.1 s c.2.1 c.2.2 with heq | ⟨Xi, Xv, ids, s1, hrec, heq⟩
    · rw [heq]
      exact ih hb hn htail
    · rw [heq]
      have hin : ∀ l ∈ (c.1 Xi Xv c.2.2).1, l.Nodup :=
        hstrat c (List.mem_cons_self _ _) Xi Xv c.2.2
      exact ih (bound_record hb hrec) (slotsNodup_record hb hn hin hrec) htail

/-- C4 — uniqueness: starting from a fresh store, over any sequence of
`suggest` calls whose strategies emit well-formed sparse assignments (no
duplicate position within one slot), no global id is ever recorded twice in
any slot's store. -/
theorem suggestSeq_no_duplicate_ids (α : Type) (k : Nat)
    (calls : List ((List (List Nat) → List (List α) → Nat →
        List (List Nat) × List (List α)) × List (Document α) × Nat))
    (hstrat : ∀ c ∈ calls, ∀ Xi Xv n, ∀ l ∈ (c.1 Xi Xv n).1, l.Nodup) :
    ∀ l ∈ (suggestSeq (TBA.init α k) calls).db_idxs, l.Nodup :=
  (inv_suggestSeq calls (bound_init α k) (slotsNodup_init α k) hstrat).2

theorem suggestSeq_no_duplicate_ids_witness :
    [0] ∈ (suggestSeq (TBA.init Nat 1)
        [(fun _ _ _ => ([[0]], [[42]]), [], 1)]).db_idxs ∧
    ([0] : List Nat).Nodup := by
  refine ⟨by decide, ?_⟩
  refine suggestSeq_no_duplicate_ids Nat 1
    [(fun _ _ _ => ([[0]], [[42]]), [], 1)] ?_ [0] (by decide)
  intro c hc Xi Xv n l hl
  rw [List.mem_singleton] at hc
  subst hc
  have hl2 : l ∈ [([0] : List Nat)] := hl
  rw [List.mem_singleton] at hl2
  subst hl2
  decide

/-- For a successful `record`, the returned fresh ids are strictly
ascending (hence distinct), and all lie in the half-open interval from the
old counter to the new counter. -/
theorem record_ids_range {s : TBA α} {idxs : List (List Nat)}
    {vals : List (List α)} {r : List Nat} {s' : TBA α}
    (h : record s idxs vals = some (r, s')) :
    List.Sorted (· < ·) r ∧ ∀ g ∈ r, s.next_id ≤ g ∧ g < s'.next_id := by
  obtain ⟨h1, h2, hr, hs⟩ := record_some_inv h
  subst hs hr
  refine ⟨sortedDistinct_sorted _, ?_⟩
  intro g hg
  obtain ⟨p, hp, hpc⟩ := (mem_ext_iff s.next_id _).1 (mem_sortedDistinct.1 hg)
  have := lt_maxPlus1 hp
  show s.next_id ≤ g ∧
    g < s.next_id + maxPlus1 ((idxs.zip vals).map Prod.fst).flatten
  omega

theorem map_tag_zipWith (ids : List Nat) (ds : List (Document α))
    (h : ids.length ≤ ds.length) :
    (List.zipWith (fun i d => { d with TBA_id := some i }) ids ds).map
        Document.TBA_id = ids.map some := by
  induction ids generalizing ds with
  | nil => simp
  | cons i t ih =>
    cases ds with
    | nil => simp at h
    | cons d ds =>
      simp only [List.zipWith_cons_cons, List.map_cons]
      rw [ih ds (by simpa using h)]

/-- Inversion of a successful `suggest`: the fresh ids come from `record`
on the strategy output, there are exactly `N` of them, the rebuilt untagged
documents number exactly `N`, and the result is those documents tagged with
the ids pointwise. -/
theorem suggest_some_inv {α : Type}
    {strat : List (List Nat) → List (List α) → Nat →
      List (List Nat) × List (List α)}
    {s : TBA α} {X : List (Document α)} {N : Nat}
    {docs : List (Document α)} {s' : TBA α}
    (h : suggest strat s X N = (some docs, s')) :
    ∃ Xi Xv ids,
      record s (strat Xi Xv N).1 (strat Xi Xv N).2 = some (ids, s') ∧
      ids.length = N ∧
      (to_documents (strat Xi Xv N).1 (strat Xi Xv N).2).length = N ∧
      docs = List.zipWith (fun i d => { d with TBA_id := some i }) ids
        (to_documents (strat Xi Xv N).1 (strat Xi Xv N).2) := by
  unfold suggest at h
  split at h
  · cases h
  · split at h
    · cases h
    · rename_i Xi Xv hXok
      split at h
      rename_i r_idxs r_vals hstrat
      split at h
      · cases h
      · rename_i ids s1 hrec
        split at h
        · split at h
          · split at h
            · injection h with hdocs hstate
              refine ⟨Xi, Xv, ids, ?_, ?_, ?_, ?_⟩
              · rw [hstrat]
                rw [← hstate]
                exact hrec
              · assumption
              · rw [hstrat]
                assumption
              · rw [hstrat]
                injection hdocs with hdocs2
                exact hdocs2.symm
            · cases h
          · cases h
        · cases h

/-- C8 — suggest postcondition: a successful `suggest` call returns exactly
`N` documents; there is a strictly ascending list of exactly `N` freshly
allocated global ids (all at or above the pre-call counter and below the
post-call counter) attached in position order as the documents' `TBA_id`
tags. -/
theorem suggest_postcondition (α : Type)
    (strat : List (List Nat) → List (List α) → Nat →
      List (List Nat) × List (List α))
    (s : TBA α) (X : List (Document α)) (N : Nat)
    (docs : List (Document α)) (s' : TBA α)
    (h : suggest strat s X N = (some docs, s')) :
    docs.length = N ∧
    ∃ ids, ids.length = N ∧ List.Sorted (· < ·) ids ∧
      docs.map Document.TBA_id = ids.map some ∧
      ∀ g ∈ ids, s.next_id ≤ g ∧ g < s'.next_id := by
  obtain ⟨Xi, Xv, ids, hrec, hN, hdN, hdocs⟩ := suggest_some_inv h
  obtain ⟨hsorted, hrange⟩ := record_ids_range hrec
  subst hdocs
  refine ⟨?_, ids, hN, hsorted, ?_, hrange⟩
  · rw [List.length_zipWith, hN, hdN, min_self]
  · exact map_tag_zipWith ids _ (by rw [hN, hdN])

theorem suggest_postcondition_witness :
    (suggest (fun _ _ _ => ([[0, 2], [1]], [[10, 20], [30]]))
        (TBA.init Nat 2) [] 3).2.next_id = 3 ∧
    ([⟨[some 10, none], some 0⟩, ⟨[none, some 30], some 1⟩,
      ⟨[some 20, none], some 2⟩] : List (Document Nat)).length = 3 ∧
    ∃ ids, ids.length = 3 ∧ List.Sorted (· < ·) ids ∧
      ([⟨[some 10, none], some 0⟩, ⟨[none, some 30], some 1⟩,
        ⟨[some 20, none], some 2⟩] : List (Document Nat)).map
          Document.TBA_id = ids.map some := by
  have h := suggest_postcondition Nat
    (fun _ _ _ => ([[0, 2], [1]], [[10, 20], [30]])) (TBA.init Nat 2) [] 3
    [⟨[some 10, none], some 0⟩, ⟨[none, some 30], some 1⟩,
      ⟨[some 20, none], some 2⟩]
    ⟨3, [[0, 2], [1]], [[10, 20], [30]]⟩ (by decide)
  obtain ⟨hlen, ids, hN, hsorted, hmap, -⟩ := h
  exact ⟨by decide, hlen, ids, hN, hsorted, hmap⟩

/-! ### C6: round-trip -/

theorem mem_range_map {c N g : Nat} :
    g ∈ (List.range N).map (· + c) ↔ ∃ p, p < N ∧ p + c = g := by
  simp [List.mem_map, List.mem_range]

theorem sorted_range_map (c N : Nat) :
    List.Sorted (· < ·) ((List.range N).map (· + c)) :=
  (List.pairwise_lt_range N).map _ fun a b hab => by omega

theorem nodup_range_map (c N : Nat) : ((List.range N).map (· + c)).Nodup :=
  (List.nodup_range N).map (add_left_injective c)

theorem indexOf_range_map (c N p : Nat) (hp : p < N) :
    ((List.range N).map (· + c)).indexOf (p + c) = p := by
  have hlt2 : p < ((List.range N).map (· + c)).length := by simpa using hp
  have hget : ((List.range N).map (· + c))[p] = p + c := by
    rw [List.getElem_map]
    simp [List.getElem_range]
  have h2 := List.indexOf_getElem (nodup_range_map c N) p hlt2
  rw [hget] at h2
  exact h2

/-- One slot of the round-trip: recalling the freshly appended suffix of a
slot filters out the old entries (their ids are below the offset), keeps the
new ones in order, and `indexOf` into the contiguous fresh-id list undoes
the offset shift. -/
theorem recall_slot_roundtrip {α : Type} (c N : Nat)
    (db_i : List Nat) (dv_i : List α) (ai : List Nat) (vi : List α)
    (hdb : db_i.length = dv_i.length) (havi : ai.length = vi.length)
    (hold : ∀ g ∈ db_i, g < c) (hltN : ∀ p ∈ ai, p < N) :
    ((((db_i ++ ai.map (· + c)).zip (dv_i ++ vi)).filter fun pr =>
        decide (pr.1 ∈ (List.range N).map (· + c))).map
          fun pr => ((List.range N).map (· + c)).indexOf pr.1) = ai ∧
    ((((db_i ++ ai.map (· + c)).zip (dv_i ++ vi)).filter fun pr =>
        decide (pr.1 ∈ (List.range N).map (· + c))).map Prod.snd) = vi := by
  have hmaplen : (ai.map (· + c)).length = vi.length := by
    rw [List.length_map, havi]
  have hzip : (db_i ++ ai.map (· + c)).zip (dv_i ++ vi)
      = db_i.zip dv_i ++ (ai.map (· + c)).zip vi := List.zip_append hdb
  have hfilter : (((db_i ++ ai.map (· + c)).zip (dv_i ++ vi)).filter fun pr =>
      decide (pr.1 ∈ (List.range N).map (· + c)))
      = (ai.map (· + c)).zip vi := by
    rw [hzip, List.filter_append]
    have hl : ((db_i.zip dv_i).filter fun pr =>
        decide (pr.1 ∈ (List.range N).map (· + c))) = [] := by
      rw [List.filter_eq_nil_iff]
      intro pr hpr
      simp only [decide_eq_true_eq]
      intro hmem
      obtain ⟨p, hpN, hpc⟩ := mem_range_map.1 hmem
      have := hold pr.1 (List.of_mem_zip hpr).1
      omega
    have hr : (((ai.map (· + c)).zip vi).filter fun pr =>
        decide (pr.1 ∈ (List.range N).map (· + c)))
        = (ai.map (· + c)).zip vi := by
      rw [List.filter_eq_self]
      intro pr hpr
      simp only [decide_eq_true_eq]
      obtain ⟨p, hp, hpc⟩ := List.mem_map.1 (List.of_mem_zip hpr).1
      exact mem_range_map.2 ⟨p, hltN p hp, hpc⟩
    rw [hl, hr, List.nil_append]
  constructor
  · rw [hfilter]
    have h3 : (((ai.map (· + c)).zip vi).map fun pr =>
        ((List.range N).map (· + c)).indexOf pr.1)
        = (((ai.map (· + c)).zip vi).map Prod.fst).map
            fun x => ((List.range N).map (· + c)).indexOf x := by
      rw [List.map_map]
      rfl
    rw [h3, List.map_fst_zip _ _ (le_of_eq hmaplen), List.map_map]
    have h4 : ∀ p ∈ ai,
        ((fun x => ((List.range N).map (· + c)).indexOf x) ∘ (· + c)) p
          = id p := by
      intro p hp
      show ((List.range N).map (· + c)).indexOf (p + c) = p
      exact indexOf_range_map c N p (hltN p hp)
    rw [List.map_congr_left h4, List.map_id]
  · rw [hfilter]
    exact List.map_snd_zip _ _ (le_of_eq hmaplen.symm)

/-- C6 — round-trip: on a reachable store (ids below the counter, parallel
slot lengths) and an input assignment whose local positions cover `0..N-1`
exactly (every position in at least one slot, all positions below `N`, no
duplicates within a slot, equal per-slot lengths), `record` followed by
`recall` of the returned ids reproduces exactly the recorded positions and
values for every slot. -/
theorem record_recall_roundtrip (α : Type) (s : TBA α)
    (idxs : List (List Nat)) (vals : List (List α)) (N : Nat)
    (hb : ∀ g ∈ allIds s, g < s.next_id)
    (hw : LenWF s)
    (h1 : idxs.length = s.db_idxs.length)
    (h2 : vals.length = s.db_vals.length)
    (hlen : ∀ i, i < idxs.length →
      (idxs.getD i []).length = (vals.getD i []).length)
    (hnd : ∀ l ∈ idxs, l.Nodup)
    (hltN : ∀ l ∈ idxs, ∀ p ∈ l, p < N)
    (hcov : ∀ p, p < N → ∃ l ∈ idxs, p ∈ l) :
    ∃ ret s', record s idxs vals = some (ret, s') ∧
      recall' s' ret = .ok (idxs, vals) := by
  have hiv : idxs.length = vals.length := by rw [h1, h2, hw.1]
  have hfst : (idxs.zip vals).map Prod.fst = idxs :=
    List.map_fst_zip _ _ (le_of_eq hiv)
  have hsnd : (idxs.zip vals).map Prod.snd = vals :=
    List.map_snd_zip _ _ (le_of_eq hiv.symm)
  have hrec := record_some s idxs vals h1 h2
  rw [hfst, hsnd] at hrec
  have hmemflat : ∀ p, p ∈ idxs.flatten ↔ p < N := by
    intro p
    constructor
    · intro hp
      obtain ⟨l, hl, hpl⟩ := List.mem_flatten.1 hp
      exact hltN l hl p hpl
    · intro hp
      obtain ⟨l, hl, hpl⟩ := hcov p hp
      exact List.mem_flatten_of_mem hl hpl
  have hret : sortedDistinct
      ((idxs.map fun l => l.map (· + s.next_id)).flatten)
      = (List.range N).map (· + s.next_id) := by
    apply sortedDistinct_eq (sorted_range_map _ _)
    intro a
    rw [mem_range_map, mem_ext_iff]
    constructor
    · rintro ⟨p, hpN, hpc⟩
      exact ⟨p, (hmemflat p).2 hpN, hpc⟩
    · rintro ⟨p, hp, hpc⟩
      exact ⟨p, (hmemflat p).1 hp, hpc⟩
  rw [hret] at hrec
  refine ⟨_, _, hrec, ?_⟩
  have hwf' := lenWF_record hw hlen hrec
  have hdblen : (extendEach s.db_idxs
      (idxs.map fun l => l.map (· + s.next_id))).length = idxs.length := by
    rw [extendEach_length, ← h1]
  have hdvlen : (extendEach s.db_vals vals).length = idxs.length := by
    rw [extendEach_length, ← hw.1, ← h1]
  by_cases hN : 0 < N
  · have hretlen : 0 < ((List.range N).map (· + s.next_id)).length := by
      simpa using hN
    have hziplen : ((extendEach s.db_idxs
        (idxs.map fun l => l.map (· + s.next_id))).zip
        (extendEach s.db_vals vals)).length = idxs.length := by
      rw [List.length_zip, hdblen, hdvlen, min_self]
    have hslot : ∀ i (hi : i < idxs.length),
        (((((extendEach s.db_idxs
            (idxs.map fun l => l.map (· + s.next_id))).getD i []).zip
          ((extendEach s.db_vals vals).getD i [])).filter fun pr =>
            decide (pr.1 ∈ (List.range N).map (· + s.next_id))).map
              fun pr =>
                ((List.range N).map (· + s.next_id)).indexOf pr.1) = idxs[i] ∧
        (((((extendEach s.db_idxs
            (idxs.map fun l => l.map (· + s.next_id))).getD i []).zip
          ((extendEach s.db_vals vals).getD i [])).filter fun pr =>
            decide (pr.1 ∈ (List.range N).map (· + s.next_id))).map
              Prod.snd) = vals.get ⟨i, hiv ▸ hi⟩ := by
      intro i hi
      have hib : i < s.db_idxs.length := h1 ▸ hi
      have hiv2 : i < vals.length := hiv ▸ hi
      have hivb : i < s.db_vals.length := h2 ▸ hiv2
      have e1 : (extendEach s.db_idxs
          (idxs.map fun l => l.map (· + s.next_id))).getD i []
          = s.db_idxs.getD i [] ++ (idxs[i]).map (· + s.next_id) := by
        rw [extendEach_getD _ _ _ hib, getD_map_lt _ _ hi []]
      have e2 : (extendEach s.db_vals vals).getD i []
          = s.db_vals.getD i [] ++ vals[i] := by
        rw [extendEach_getD _ _ _ hivb, List.getD_eq_getElem _ _ hiv2]
      rw [e1, e2]
      apply recall_slot_roundtrip
      · exact hw.2 i hib
      · have h3 := hlen i hi
        rw [List.getD_eq_getElem _ _ hi, List.getD_eq_getElem _ _ hiv2] at h3
        exact h3
      · intro g hg
        exact hb g (mem_of_mem_getD hg)
      · exact hltN _ (List.getElem_mem hi)
    unfold recall'
    rw [if_pos hretlen, if_pos (nodup_range_map s.next_id N)]
    rw [recallSlots_ok _ _ (zip_slots_lengths hwf')]
    have hmap1 : (((extendEach s.db_idxs
        (idxs.map fun l => l.map (· + s.next_id))).zip
        (extendEach s.db_vals vals)).map fun p =>
          ((p.1.zip p.2).filter fun pr =>
            decide (pr.1 ∈ (List.range N).map (· + s.next_id))).map
              fun pr => ((List.range N).map (· + s.next_id)).indexOf pr.1)
        = idxs := by
      apply List.ext_getElem
      · rw [List.length_map, hziplen]
      · intro i hi1 hi2
        rw [List.getElem_map]
        have hml : i < ((extendEach s.db_idxs
            (idxs.map fun l => l.map (· + s.next_id))).zip
            (extendEach s.db_vals vals)).length := by
          rw [hziplen]; exact hi2
        have hdb_i : i < (extendEach s.db_idxs
            (idxs.map fun l => l.map (· + s.next_id))).length := by
          rw [hdblen]; exact hi2
        have hdv_i : i < (extendEach s.db_vals vals).length := by
          rw [hdvlen]; exact hi2
        rw [getElem_zip_pair hml hdb_i hdv_i,
          ← List.getD_eq_getElem (extendEach s.db_idxs
            (idxs.map fun l => l.map (· + s.next_id))) [] hdb_i,
          ← List.getD_eq_getElem (extendEach s.db_vals vals) [] hdv_i]
        exact (hslot i hi2).1
    have hmap2 : (((extendEach s.db_idxs
        (idxs.map fun l => l.map (· + s.next_id))).zip
        (extendEach s.db_vals vals)).map fun p =>
          ((p.1.zip p.2).filter fun pr =>
            decide (pr.1 ∈ (List.range N).map (· + s.next_id))).map
              Prod.snd)
        = vals := by
      apply List.ext_getElem
      · rw [List.length_map, hziplen, hiv]
      · intro i hi1 hi2
        have hi3 : i < idxs.length := hiv ▸ hi2
        rw [List.getElem_map]
        have hml : i < ((extendEach s.db_idxs
            (idxs.map fun l => l.map (· + s.next_id))).zip
            (extendEach s.db_vals vals)).length := by
          rw [hziplen]; exact hi3
        have hdb_i : i < (extendEach s.db_idxs
            (idxs.map fun l => l.map (· + s.next_id))).length := by
          rw [hdblen]; exact hi3
        have hdv_i : i < (extendEach s.db_vals vals).length := by
          rw [hdvlen]; exact hi3
        rw [getElem_zip_pair hml hdb_i hdv_i,
          ← List.getD_eq_getElem (extendEach s.db_idxs
            (idxs.map fun l => l.map (· + s.next_id))) [] hdb_i,
          ← List.getD_eq_getElem (extendEach s.db_vals vals) [] hdv_i]
        exact (hslot i hi3).2
    rw [hmap1, hmap2]
  · have hN0 : N = 0 := by omega
    subst hN0
    have hidxnil : ∀ l ∈ idxs, l = [] := by
      intro l hl
      rw [List.eq_nil_iff_forall_not_mem]
      intro p hp
      exact absurd (hltN l hl p hp) (by omega)
    unfold recall'
    rw [if_neg (by simp)]
    have hmap1 : (extendEach s.db_idxs
        (idxs.map fun l => l.map (· + s.next_id))).map
          (fun _ => ([] : List Nat)) = idxs := by
      apply List.ext_getElem
      · rw [List.length_map, hdblen]
      · intro i hi1 hi2
        rw [List.getElem_map]
        exact (hidxnil idxs[i] (List.getElem_mem hi2)).symm
    have hmap2 : (extendEach s.db_idxs
        (idxs.map fun l => l.map (· + s.next_id))).map
          (fun _ => ([] : List α)) = vals := by
      apply List.ext_getElem
      · rw [List.length_map, hdblen, hiv]
      · intro i hi1 hi2
        have hi3 : i < idxs.length := hiv ▸ hi2
        rw [List.getElem_map]
        have hv0 : (vals[i]).length = 0 := by
          have h3 := hlen i hi3
          rw [List.getD_eq_getElem _ _ hi3, List.getD_eq_getElem _ _ hi2,
            hidxnil _ (List.getElem_mem hi3)] at h3
          exact h3.symm
        exact (List.eq_nil_of_length_eq_zero hv0).symm
    rw [hmap1, hmap2]

theorem record_recall_roundtrip_witness :
    ∃ ret s',
      record (⟨1, [[0], []], [[7], []]⟩ : TBA Nat)
        [[0, 2], [1, 2]] [[10, 20], [30, 40]] = some (ret, s') ∧
      recall' s' ret = .ok ([[0, 2], [1, 2]], [[10, 20], [30, 40]]) :=
  record_recall_roundtrip Nat (⟨1, [[0], []], [[7], []]⟩ : TBA Nat)
    [[0, 2], [1, 2]] [[10, 20], [30, 40]] 3
    (by decide) ⟨rfl, by decide⟩ (by decide) (by decide) (by decide)
    (by decide) (by decide) (by decide)

end Hyperopt
